import Mathlib

/-!
Verification of the TypeScript project-synthesis core (`src/typescript.ts`):
the tsconfig fragment merger `mergeTsconfigOptions`, the jest snapshot-path
resolver pair `resolveSnapshotPath` / `resolveTestPath`, the build-task spawn
ordering, and the `compiledTests` layout predicate.

Paths are modelled as Lean `String`s (lists of characters); the Node `path`
module (POSIX flavour) and the JavaScript string primitives used by the source
are modelled explicitly below, at the character-list level.
-/

namespace Projen

/-! ## Models of the JavaScript / Node primitives used by the source -/

/-- Model of ECMA-262 `GetSubstitution` for a *string* search pattern (no
capture groups): expands, inside the replacement text, the escapes
dollar-dollar (a literal dollar), dollar-ampersand (the matched substring),
dollar-backquote (the part of the subject before the match, `before`) and
dollar-singlequote (the part after the match, `after`); any other dollar
sign passes through literally (with zero capture groups the digit and
angle-bracket forms are also emitted literally, which the fall-through
branch reproduces character by character). `Char.ofNat 96` is the backquote
character and `Char.ofNat 39` the single quote. -/
def getSubstitution (matched before after : List Char) : List Char → List Char
  | [] => []
  | c :: rest =>
    if c = '$' then
      match rest with
      | [] => ['$']
      | d :: rest' =>
        if d = '$' then '$' :: getSubstitution matched before after rest'
        else if d = '&' then matched ++ getSubstitution matched before after rest'
        else if d = Char.ofNat 96 then before ++ getSubstitution matched before after rest'
        else if d = Char.ofNat 39 then after ++ getSubstitution matched before after rest'
        else c :: d :: getSubstitution matched before after rest'
    else c :: getSubstitution matched before after rest

/-- Scan of JavaScript `String.prototype.replace` with a string pattern:
finds the first occurrence of `pat`, emits the `GetSubstitution` expansion
of `rep` in its place, and leaves the input unchanged when `pat` does not
occur. `before` accumulates the already-scanned prefix in reverse. -/
def replaceFirstAux (pat rep : List Char) : List Char → List Char → List Char
  | before, [] => if pat = [] then getSubstitution pat before.reverse [] rep else []
  | before, c :: cs =>
    if pat.isPrefixOf (c :: cs) then
      getSubstitution pat before.reverse ((c :: cs).drop pat.length) rep
        ++ (c :: cs).drop pat.length
    else c :: replaceFirstAux pat rep (c :: before) cs

/-- Model of JavaScript `String.prototype.replace` with a *string* pattern
(applied to character lists): replaces only the first occurrence of `pat`
by the `GetSubstitution` expansion of `rep`; if `pat` does not occur, the
input is returned unchanged. -/
def replaceFirstChars (pat rep s : List Char) : List Char :=
  replaceFirstAux pat rep [] s

/-- Model of JavaScript `String.prototype.replace` with a string pattern
(first occurrence only, ECMA-262 `GetSubstitution` applied to the
replacement). -/
def jsReplaceFirst (s pat rep : String) : String :=
  ⟨replaceFirstChars pat.data rep.data s.data⟩

/-- Model of JavaScript `String.prototype.includes` (substring test),
used only to state claims about paths "containing" a root. -/
def isInfixChars (pat : List Char) : List Char → Bool
  | [] => pat.isEmpty
  | c :: cs => pat.isPrefixOf (c :: cs) || isInfixChars pat cs

/-- Model of JavaScript `String.prototype.startsWith`. -/
def jsStartsWith (s pre : String) : Bool :=
  pre.data.isPrefixOf s.data

/-- Case split of Node `path.posix.dirname` on the reversed remainder after
skipping the trailing slashes and the base name: `c` is the path's first
character (root detection), `r2` the reversed remainder starting at the
separator slash. -/
def dirnameCore (c : Char) (r2 : List Char) : List Char :=
  match r2 with
  | [] => if c = '/' then ['/'] else ['.']
  | _ :: rest =>
    if rest = [] then ['/']
    else if c = '/' ∧ rest = ['/'] then ['/', '/']
    else rest.reverse

/-- Model of Node `path.posix.dirname`: everything before the last `/` that
precedes the base name (trailing slashes ignored), with Node's special cases
for the root and for paths with no directory part. -/
def dirnameChars : List Char → List Char
  | [] => ['.']
  | c :: cs =>
    dirnameCore c (((c :: cs).reverse.dropWhile (· = '/')).dropWhile (· ≠ '/'))

/-- Model of Node `path.posix.basename` without an extension argument:
the last path component, ignoring trailing slashes. -/
def basenameChars (p : List Char) : List Char :=
  ((p.reverse.dropWhile (· = '/')).takeWhile (· ≠ '/')).reverse

/-- Model of Node `path.posix.basename` with an extension argument: the last
component, with `ext` stripped when it is a proper suffix of that component. -/
def basenameExtChars (p ext : List Char) : List Char :=
  let b := basenameChars p
  if ext ≠ [] ∧ ext.isSuffixOf b ∧ b ≠ ext then b.take (b.length - ext.length)
  else b

/-- Segments of a path: split on `/` (runs of slashes give empty segments). -/
def splitSlash : List Char → List (List Char)
  | [] => [[]]
  | c :: rest =>
    if c = '/' then [] :: splitSlash rest
    else
      match splitSlash rest with
      | [] => [[c]]
      | s :: ss => (c :: s) :: ss

/-- Joins segments with single `/` separators (inverse of `splitSlash`
on slash-free segments). -/
def joinSlash : List (List Char) → List Char
  | [] => []
  | [s] => s
  | s :: r :: rs => s ++ '/' :: joinSlash (r :: rs)

/-- Node's `normalizeString` segment processing: drops `.` segments and
resolves `..` against the accumulated stack (keeping leading `..` only
for relative paths). -/
def normSegs (allowAboveRoot : Bool) (acc : List (List Char)) :
    List (List Char) → List (List Char)
  | [] => acc.reverse
  | s :: rest =>
    if s = ['.'] then normSegs allowAboveRoot acc rest
    else if s = ['.', '.'] then
      match acc with
      | [] => normSegs allowAboveRoot (if allowAboveRoot then [s] else []) rest
      | t :: acc' =>
        if t = ['.', '.'] then normSegs allowAboveRoot (s :: acc) rest
        else normSegs allowAboveRoot acc' rest
    else normSegs allowAboveRoot (s :: acc) rest

/-- Model of Node `path.posix.normalize`. -/
def normalizeChars : List Char → List Char
  | [] => ['.']
  | c :: cs =>
    let segs := (splitSlash (c :: cs)).filter (· ≠ [])
    let core := joinSlash (normSegs (if c = '/' then false else true) [] segs)
    let trailing := (c :: cs).getLast? = some '/'
    if core = [] then
      (if c = '/' then ['/'] else if trailing then ['.', '/'] else ['.'])
    else
      ((if c = '/' then '/' :: core else core) ++ (if trailing then ['/'] else []))

/-- Model of Node `path.posix.join`: concatenate the non-empty parts with `/`
and normalize; all parts empty yields `"."`. -/
def joinChars (parts : List (List Char)) : List Char :=
  let joined := joinSlash (parts.filter (· ≠ []))
  if joined = [] then ['.'] else normalizeChars joined

/-- Model of Node `path.posix.dirname` on strings. -/
def posixDirname (p : String) : String := ⟨dirnameChars p.data⟩

/-- Model of Node `path.posix.basename` with an extension argument. -/
def posixBasenameExt (p ext : String) : String := ⟨basenameExtChars p.data ext.data⟩

/-- Model of Node `path.posix.join` on strings. -/
def posixJoin (parts : List String) : String := ⟨joinChars (parts.map String.data)⟩

/-! ## The snapshot-path resolver pair (source lines 317-330)

Both functions are parameterized by the two root constants the source
closures capture: `libtest` (compiled-test root) and `srctest`
(source-test root). -/

/-- Embedding of `resolveSnapshotPath` from `src/typescript.ts`:
`test.replace(libtest, srctest)`, then
`path.join(path.dirname(fullpath), "__snapshots__",
path.basename(fullpath, ".js") + ".ts" + ext)`. -/
def resolveSnapshotPath (libtest srctest test ext : String) : String :=
  let fullpath := jsReplaceFirst test libtest srctest
  posixJoin [posixDirname fullpath, "__snapshots__",
    posixBasenameExt fullpath ".js" ++ ".ts" ++ ext]

/-- Embedding of `resolveTestPath` from `src/typescript.ts`:
`path.basename(snap, ".ts" + ext) + ".js"`, directory
`path.dirname(path.dirname(snap)).replace(srctest, libtest)`, joined. -/
def resolveTestPath (libtest srctest snap ext : String) : String :=
  let filename := posixBasenameExt snap (".ts" ++ ext) ++ ".js"
  let dir := jsReplaceFirst (posixDirname (posixDirname snap)) srctest libtest
  posixJoin [dir, filename]

/-! ## The tsconfig fragment merger (source lines 500-517) -/

/-- Opaque compiler-option values (the merger treats them as opaque;
`strListVal` exercises the "replaced wholesale, no deep merge" behaviour). -/
inductive OptionValue where
  | boolVal : Bool → OptionValue
  | strVal : String → OptionValue
  | intVal : Int → OptionValue
  | strListVal : List String → OptionValue
deriving DecidableEq

/-- A JavaScript object of compiler options: string-keyed association list
in property order (JS objects have no duplicate keys in practice, but no
lemma below assumes that). -/
abbrev CompilerOptions := List (String × OptionValue)

/-- Property access on a `CompilerOptions` object. -/
def lookupKey (k : String) : CompilerOptions → Option OptionValue
  | [] => none
  | (k', v) :: rest => if k' = k then some v else lookupKey k rest

/-- Model of the JavaScript object spread `{...previous, ...current}` on
compiler-option objects: keys of `previous` keep their position but take
`current`'s value when `current` also has the key; keys only in `current`
are appended in `current`'s order. -/
def spreadMerge (previous current : CompilerOptions) : CompilerOptions :=
  previous.map (fun kv => (kv.1, (lookupKey kv.1 current).getD kv.2))
    ++ current.filter (fun kv => (lookupKey kv.1 previous).isNone)

/-- Embedding of the `TypescriptConfigOptions` fragments consumed by
`mergeTsconfigOptions`: every field the merger touches, optional fields as
`Option` (`none` = property absent). -/
structure TypescriptConfigOptions where
  fileName : Option String
  «include» : Option (List String)
  exclude : Option (List String)
  compilerOptions : Option CompilerOptions
deriving DecidableEq

/-- The reducer of `mergeTsconfigOptions`:
`{...previous, ...current, include: [...prev, ...cur],
exclude: [...prev, ...cur], compilerOptions: {...prev, ...cur}}`
(the outer spread only affects `fileName`, whose value the three explicit
properties do not override). -/
def mergeStep (previous current : TypescriptConfigOptions) : TypescriptConfigOptions :=
  { fileName := current.fileName.or previous.fileName
    «include» := some ((previous.«include».getD []) ++ (current.«include».getD []))
    exclude := some ((previous.exclude.getD []) ++ (current.exclude.getD []))
    compilerOptions := some (spreadMerge (previous.compilerOptions.getD [])
      (current.compilerOptions.getD [])) }

/-- The reduce seed of `mergeTsconfigOptions`: `{ compilerOptions: {} }`
(note: `include` and `exclude` properties absent, `compilerOptions` empty). -/
def mergeSeed : TypescriptConfigOptions :=
  { fileName := none, «include» := none, exclude := none, compilerOptions := some [] }

/-- Embedding of `mergeTsconfigOptions` from `src/typescript.ts`:
filter out the undefined entries (`options.filter(Boolean)`), then reduce
left-to-right with `mergeStep` from `mergeSeed`. -/
def mergeTsconfigOptions (options : List (Option TypescriptConfigOptions)) :
    TypescriptConfigOptions :=
  let definedOptions := options.filterMap id
  definedOptions.foldl mergeStep mergeSeed

/-! ## Build-task assembly (source lines 209-234 and 352-382) -/

/-- A task step: a literal shell command or a spawn-reference to another task. -/
inductive TaskStep where
  | exec : String → TaskStep
  | spawn : String → TaskStep
deriving DecidableEq

/-- A named task with its ordered step list. -/
structure Task where
  name : String
  steps : List TaskStep
deriving DecidableEq

/-- Modelled from the spec: `Task.spawn` of the external task-runner model
(`tasks.ts`, not under `src/`) appends a spawn-reference to the named child
task at the end of the step list. -/
def Task.addSpawn (t : Task) (child : Task) : Task :=
  { t with steps := t.steps ++ [TaskStep.spawn child.name] }

/-- Modelled from the spec: `Task.prependExec` of the external task-runner
model inserts a shell step before every step already present. -/
def Task.prependExec (t : Task) (cmd : String) : Task :=
  { t with steps := TaskStep.exec cmd :: t.steps }

/-- Embedding of layout predicate `compiledTests` (source line 209):
`this.testdir.startsWith(this.srcdir + path.posix.sep)`. -/
def compiledTests (srcdir testdir : String) : Bool :=
  jsStartsWith testdir (srcdir ++ "/")

/-- Embedding of source line 212:
`options.compileBeforeTest ?? compiledTests`. -/
def resolveCompileBeforeTest (compileBeforeTestOption : Option Bool)
    (srcdir testdir : String) : Bool :=
  compileBeforeTestOption.getD (compiledTests srcdir testdir)

/-- Embedding of the build-task spawn assembly (source lines 214-234):
the two spawn orders under the `compileBeforeTest` policy, then the
optional `package` spawn. -/
def configureBuildTask (compileBeforeTest packageEnabled : Bool)
    (buildTask compileTask testTask packageTask : Task) : Task :=
  let b :=
    if compileBeforeTest then (buildTask.addSpawn compileTask).addSpawn testTask
    else (buildTask.addSpawn testTask).addSpawn compileTask
  if packageEnabled then b.addSpawn packageTask else b

/-- Embedding of the cleanup injection (source lines 352 and 375-379): inside
`if (this.jest && !compiledTests)`, when `!compileBeforeTest`, prepend
`rm -fr ${this.libdir}/` to the test task. -/
def injectTestCleanup (jest compiledTests compileBeforeTest : Bool)
    (libdir : String) (testTask : Task) : Task :=
  if jest && !compiledTests then
    (if !compileBeforeTest then testTask.prependExec ("rm -fr " ++ libdir ++ "/")
     else testTask)
  else testTask

/-! ## Derived specification-side definitions -/

/-- Left-to-right concatenation of the fragments' `include` lists, an absent
`include` counting as empty. -/
def concatIncludes (fs : List TypescriptConfigOptions) : List String :=
  fs.foldr (fun f acc => f.«include».getD [] ++ acc) []

/-- Left-to-right concatenation of the fragments' `exclude` lists. -/
def concatExcludes (fs : List TypescriptConfigOptions) : List String :=
  fs.foldr (fun f acc => f.exclude.getD [] ++ acc) []

/-- A clean path segment: nonempty, slash-free, and not the special `.` or
`..` segments (so that Node's `path.join` normalization leaves it alone). -/
def cleanSeg (s : List Char) : Prop :=
  s ≠ [] ∧ '/' ∉ s ∧ s ≠ ['.'] ∧ s ≠ ['.', '.']

instance (s : List Char) : Decidable (cleanSeg s) := by
  unfold cleanSeg
  infer_instance

/-! ## Lemmas about the merger -/

theorem lookupKey_append (k : String) (l₁ l₂ : CompilerOptions) :
    lookupKey k (l₁ ++ l₂) = (lookupKey k l₁).or (lookupKey k l₂) := by
  induction l₁ with
  | nil => simp [lookupKey]
  | cons kv rest ih =>
    obtain ⟨k', v⟩ := kv
    by_cases h : k' = k <;> simp [lookupKey, h, ih]

theorem spreadMerge_nil_left (b : CompilerOptions) : spreadMerge [] b = b := by
  unfold spreadMerge
  simp [lookupKey]

theorem lookupKey_map_update (k : String) (a b : CompilerOptions) :
    lookupKey k (a.map fun kv => (kv.1, (lookupKey kv.1 b).getD kv.2))
      = (lookupKey k a).map fun v => (lookupKey k b).getD v := by
  induction a with
  | nil => simp [lookupKey]
  | cons kv rest ih =>
    obtain ⟨k', v⟩ := kv
    by_cases h : k' = k <;> simp [lookupKey, h, ih]

theorem lookupKey_filter_of_none (k : String) (a b : CompilerOptions)
    (h : lookupKey k a = none) :
    lookupKey k (b.filter fun kv => (lookupKey kv.1 a).isNone) = lookupKey k b := by
  induction b with
  | nil => rfl
  | cons kv rest ih =>
    obtain ⟨k', w⟩ := kv
    by_cases hk : k' = k
    · subst hk
      simp [List.filter_cons, h, lookupKey]
    · by_cases hkept : (lookupKey k' a).isNone <;>
        simp [List.filter_cons, hkept, lookupKey, hk, ih]

theorem lookupKey_filter_of_some (k : String) (a b : CompilerOptions) (v : OptionValue)
    (h : lookupKey k a = some v) :
    lookupKey k (b.filter fun kv => (lookupKey kv.1 a).isNone) = none := by
  induction b with
  | nil => rfl
  | cons kv rest ih =>
    obtain ⟨k', w⟩ := kv
    by_cases hk : k' = k
    · subst hk
      simp [List.filter_cons, h, lookupKey, ih]
    · by_cases hkept : (lookupKey k' a).isNone <;>
        simp [List.filter_cons, hkept, lookupKey, hk, ih]

/-- The key property of the object spread: lookup in `{...a, ...b}` prefers
`b`'s value and falls back to `a`'s. -/
theorem lookupKey_spreadMerge (k : String) (a b : CompilerOptions) :
    lookupKey k (spreadMerge a b) = (lookupKey k b).or (lookupKey k a) := by
  unfold spreadMerge
  rw [lookupKey_append, lookupKey_map_update]
  cases ha : lookupKey k a with
  | none =>
    rw [lookupKey_filter_of_none k a b ha]
    cases lookupKey k b <;> rfl
  | some v =>
    rw [lookupKey_filter_of_some k a b v ha]
    cases lookupKey k b <;> rfl

theorem foldl_mergeStep_include :
    ∀ (ds : List TypescriptConfigOptions) (acc : TypescriptConfigOptions), ds ≠ [] →
      (ds.foldl mergeStep acc).«include»
        = some (acc.«include».getD [] ++ concatIncludes ds)
  | [], _, h => absurd rfl h
  | [d], acc, _ => by simp [mergeStep, concatIncludes]
  | d :: d' :: ds, acc, _ => by
    rw [List.foldl_cons, foldl_mergeStep_include (d' :: ds) (mergeStep acc d) (by simp)]
    simp [mergeStep, concatIncludes]

theorem foldl_mergeStep_exclude :
    ∀ (ds : List TypescriptConfigOptions) (acc : TypescriptConfigOptions), ds ≠ [] →
      (ds.foldl mergeStep acc).exclude
        = some (acc.exclude.getD [] ++ concatExcludes ds)
  | [], _, h => absurd rfl h
  | [d], acc, _ => by simp [mergeStep, concatExcludes]
  | d :: d' :: ds, acc, _ => by
    rw [List.foldl_cons, foldl_mergeStep_exclude (d' :: ds) (mergeStep acc d) (by simp)]
    simp [mergeStep, concatExcludes]

theorem foldl_mergeStep_compilerOptions_isSome :
    ∀ (ds : List TypescriptConfigOptions) (acc : TypescriptConfigOptions),
      acc.compilerOptions.isSome = true →
      ((ds.foldl mergeStep acc).compilerOptions).isSome = true
  | [], _, h => h
  | d :: ds, acc, _ =>
    foldl_mergeStep_compilerOptions_isSome ds (mergeStep acc d) (by simp [mergeStep])

theorem filterMap_id_map_some (fs : List TypescriptConfigOptions) :
    (fs.map some).filterMap id = fs := by
  simp

/-- Merging the singleton of a fragment whose three mergeable fields are all
present reproduces the fragment. -/
theorem mergeTsconfigOptions_single (X : TypescriptConfigOptions)
    (h₁ : X.«include».isSome = true) (h₂ : X.exclude.isSome = true)
    (h₃ : X.compilerOptions.isSome = true) :
    mergeTsconfigOptions [some X] = X := by
  obtain ⟨fn, inc, exc, co⟩ := X
  cases inc with
  | none => simp at h₁
  | some i =>
    cases exc with
    | none => simp at h₂
    | some e =>
      cases co with
      | none => simp at h₃
      | some m =>
        simp [mergeTsconfigOptions, mergeStep, mergeSeed, spreadMerge_nil_left,
          Option.or_none]

theorem isPrefixOf_iff_exists_append :
    ∀ (l m : List Char), l.isPrefixOf m = true ↔ ∃ t, m = l ++ t
  | [], m => by simp [List.isPrefixOf]
  | a :: as, [] => by simp [List.isPrefixOf]
  | a :: as, b :: bs => by
    rw [show (a :: as).isPrefixOf (b :: bs) = (a == b && as.isPrefixOf bs) from rfl,
      Bool.and_eq_true, beq_iff_eq, isPrefixOf_iff_exists_append as bs]
    constructor
    · rintro ⟨rfl, t, rfl⟩
      exact ⟨t, rfl⟩
    · rintro ⟨t, h⟩
      injection h with h₁ h₂
      exact ⟨h₁.symm, t, h₂⟩

/-! ## Claim theorems: merger -/

/-- C4 (amended): for every **nonempty** list of defined fragments, merge
produces `include` present and equal to the left-to-right concatenation of the
fragments' `include` lists (absent `include` counting as empty), preserving
order and duplicates; likewise for `exclude`. (For the empty list the claim
fails: the result's `include` is absent, not the empty list — see the
counterexample.) -/
theorem mergeTsconfigOptions_concat_include_exclude
    (fs : List TypescriptConfigOptions) (h : fs ≠ []) :
    (mergeTsconfigOptions (fs.map some)).«include» = some (concatIncludes fs) ∧
    (mergeTsconfigOptions (fs.map some)).exclude = some (concatExcludes fs) := by
  unfold mergeTsconfigOptions
  rw [filterMap_id_map_some]
  constructor
  · rw [foldl_mergeStep_include fs mergeSeed h]
    rfl
  · rw [foldl_mergeStep_exclude fs mergeSeed h]
    rfl

/-- Witness for C4: the spec's own example, A = {include: [a]},
B = {include: [b]} merges to include [a, b]. -/
theorem mergeTsconfigOptions_concat_include_exclude_witness :
    (mergeTsconfigOptions [some ⟨none, some ["a"], none, none⟩,
        some ⟨none, some ["b"], none, none⟩]).«include» = some ["a", "b"] := by
  have h := mergeTsconfigOptions_concat_include_exclude
    [⟨none, some ["a"], none, none⟩, ⟨none, some ["b"], none, none⟩] (by decide)
  simpa [concatIncludes] using h.1

/-- Counterexample for C4 as stated: for the empty list of defined fragments
the merged `include` is absent (`none`), not the empty concatenation. -/
theorem mergeTsconfigOptions_concat_nil_cex :
    (mergeTsconfigOptions (([] : List TypescriptConfigOptions).map some)).«include» = none ∧
    (mergeTsconfigOptions (([] : List TypescriptConfigOptions).map some)).«include»
      ≠ some (concatIncludes []) := by
  decide

/-- C5: merging two fragments left to right, the merged `compilerOptions` is
exactly the one-level object spread: lookup of any key prefers the later
fragment's value and falls back to the earlier one's (values replaced
wholesale), and the spec's example {x:1, y:2} with {y:3} gives {x:1, y:3}. -/
theorem mergeTsconfigOptions_options_override :
    (∀ A B : TypescriptConfigOptions,
      (mergeTsconfigOptions [some A, some B]).compilerOptions
        = some (spreadMerge (A.compilerOptions.getD []) (B.compilerOptions.getD []))) ∧
    (∀ (a b : CompilerOptions) (k : String),
      lookupKey k (spreadMerge a b) = (lookupKey k b).or (lookupKey k a)) ∧
    spreadMerge [("x", OptionValue.intVal 1), ("y", OptionValue.intVal 2)]
        [("y", OptionValue.intVal 3)]
      = [("x", OptionValue.intVal 1), ("y", OptionValue.intVal 3)] := by
  refine ⟨fun A B => ?_, fun a b k => lookupKey_spreadMerge k a b, by decide⟩
  simp [mergeTsconfigOptions, mergeStep, mergeSeed, spreadMerge_nil_left]

/-- C6 (amended): merge skips absent entries — `merge([undefined, A,
undefined]) = merge([A])` — and when every entry is absent (including the
empty list) the result is the seed `{ compilerOptions: {} }`: its
`compilerOptions` is the empty object but its `include` and `exclude` are
**absent**, not empty lists. -/
theorem mergeTsconfigOptions_skip_absent :
    (∀ A : TypescriptConfigOptions,
      mergeTsconfigOptions [none, some A, none] = mergeTsconfigOptions [some A]) ∧
    (∀ fs : List (Option TypescriptConfigOptions), fs.filterMap id = [] →
      mergeTsconfigOptions fs = mergeSeed) := by
  constructor
  · intro A
    rfl
  · intro fs h
    unfold mergeTsconfigOptions
    rw [h]
    rfl

/-- Witness for C6: all-absent input `[undefined]` gives the seed. -/
theorem mergeTsconfigOptions_skip_absent_witness :
    mergeTsconfigOptions [none] = mergeSeed :=
  mergeTsconfigOptions_skip_absent.2 [none] (by decide)

/-- Counterexample for C6 as stated: on all-absent input the result's
`include` is absent (`none`), not the empty list. -/
theorem mergeTsconfigOptions_all_absent_cex :
    (mergeTsconfigOptions [(none : Option TypescriptConfigOptions)]).«include» = none ∧
    (mergeTsconfigOptions [(none : Option TypescriptConfigOptions)]).«include»
      ≠ some [] := by
  decide

theorem mergeStep_seed_mergeStep (x y : TypescriptConfigOptions) :
    mergeStep mergeSeed (mergeStep x y) = mergeStep x y := by
  simp [mergeStep, mergeSeed, spreadMerge_nil_left, Option.or_none]

/-- C7 (amended): re-merging is stable whenever at least one fragment was
defined — `merge([merge(fs)]) = merge(fs)` for every `fs` with a defined
entry — and merge of merges collapses: `merge([merge([A,B]), C]) =
merge([A,B,C])` for all fragments A, B, C. (For an all-absent `fs` the
claim fails — see the counterexample: re-merging turns the absent
`include`/`exclude` of the seed into empty lists.) -/
theorem mergeTsconfigOptions_remerge :
    (∀ fs : List (Option TypescriptConfigOptions), fs.filterMap id ≠ [] →
      mergeTsconfigOptions [some (mergeTsconfigOptions fs)] = mergeTsconfigOptions fs) ∧
    (∀ A B C : TypescriptConfigOptions,
      mergeTsconfigOptions [some (mergeTsconfigOptions [some A, some B]), some C]
        = mergeTsconfigOptions [some A, some B, some C]) := by
  constructor
  · intro fs h
    apply mergeTsconfigOptions_single
    · rw [show mergeTsconfigOptions fs = (fs.filterMap id).foldl mergeStep mergeSeed from rfl,
        foldl_mergeStep_include (fs.filterMap id) mergeSeed h]
      rfl
    · rw [show mergeTsconfigOptions fs = (fs.filterMap id).foldl mergeStep mergeSeed from rfl,
        foldl_mergeStep_exclude (fs.filterMap id) mergeSeed h]
      rfl
    · exact foldl_mergeStep_compilerOptions_isSome (fs.filterMap id) mergeSeed rfl
  · intro A B C
    show mergeStep (mergeStep mergeSeed (mergeStep (mergeStep mergeSeed A) B)) C
      = mergeStep (mergeStep (mergeStep mergeSeed A) B) C
    rw [mergeStep_seed_mergeStep]

/-- Witness for C7: re-merging the merge of one concrete fragment. -/
theorem mergeTsconfigOptions_remerge_witness :
    mergeTsconfigOptions [some (mergeTsconfigOptions
        [some ⟨none, some ["a"], none, none⟩])]
      = mergeTsconfigOptions [some ⟨none, some ["a"], none, none⟩] :=
  mergeTsconfigOptions_remerge.1 [some ⟨none, some ["a"], none, none⟩] (by decide)

/-- Counterexample for C7 as stated: with `fs = []`, `merge([merge(fs)])`
differs from `merge(fs)` (the re-merge materializes empty `include` and
`exclude` lists where the seed has absent fields). -/
theorem mergeTsconfigOptions_remerge_cex :
    mergeTsconfigOptions [some (mergeTsconfigOptions
        ([] : List (Option TypescriptConfigOptions)))]
      ≠ mergeTsconfigOptions ([] : List (Option TypescriptConfigOptions)) := by
  decide

/-! ## Claim theorems: build-task assembly -/

/-- C3: the spawn steps appended to the build task are compile-then-test when
`compileBeforeTest` holds, test-then-compile otherwise, with the `package`
spawn appended last exactly when packaging is enabled — stated for an
arbitrary initial build task and, exactly as claimed, for an empty one. -/
theorem configureBuildTask_spawn_order :
    (∀ (compileBeforeTest packageEnabled : Bool)
        (buildTask compileTask testTask packageTask : Task),
      (configureBuildTask compileBeforeTest packageEnabled
          buildTask compileTask testTask packageTask).steps
        = buildTask.steps
          ++ (if compileBeforeTest then
                [TaskStep.spawn compileTask.name, TaskStep.spawn testTask.name]
              else [TaskStep.spawn testTask.name, TaskStep.spawn compileTask.name])
          ++ (if packageEnabled then [TaskStep.spawn packageTask.name] else [])) ∧
    (∀ c p : Bool,
      (configureBuildTask c p ⟨"build", []⟩ ⟨"compile", []⟩ ⟨"test", []⟩
          ⟨"package", []⟩).steps
        = (if c then [TaskStep.spawn "compile", TaskStep.spawn "test"]
           else [TaskStep.spawn "test", TaskStep.spawn "compile"])
          ++ (if p then [TaskStep.spawn "package"] else [])) := by
  constructor
  · intro c p b ct tt pt
    cases c <;> cases p <;> simp [configureBuildTask, Task.addSpawn]
  · intro c p
    cases c <;> cases p <;> rfl

/-- C8: under the test-before-compile policy in the layout that triggers
cleanup injection (jest enabled, tests not colocated under the compiled
namespace), the `rm -fr <libdir>/` step is prepended, landing strictly before
every existing step; in particular `["jest"]` becomes
`["rm -fr lib/", "jest"]` and never `["jest", "rm -fr lib/"]`. -/
theorem injectTestCleanup_prepends :
    (∀ (libdir : String) (t : Task),
      (injectTestCleanup true false false libdir t).steps
        = TaskStep.exec ("rm -fr " ++ libdir ++ "/") :: t.steps) ∧
    (injectTestCleanup true false false "lib" ⟨"test", [TaskStep.exec "jest"]⟩).steps
      = [TaskStep.exec "rm -fr lib/", TaskStep.exec "jest"] ∧
    (injectTestCleanup true false false "lib" ⟨"test", [TaskStep.exec "jest"]⟩).steps
      ≠ [TaskStep.exec "jest", TaskStep.exec "rm -fr lib/"] := by
  refine ⟨fun libdir t => rfl, by decide, by decide⟩

/-- C10: with `compileBeforeTest` unsupplied, the compile-first policy is
selected iff `testdir` literally extends `srcdir` by a `/` separator; equal
directories or a mere string prefix without the separator select
test-before-compile. -/
theorem compileBeforeTest_default_layout :
    (∀ srcdir testdir : String,
      resolveCompileBeforeTest none srcdir testdir = true ↔
        ∃ rest : String, testdir = srcdir ++ "/" ++ rest) ∧
    resolveCompileBeforeTest none "src" "src" = false ∧
    resolveCompileBeforeTest none "src" "srcfoo" = false := by
  refine ⟨fun srcdir testdir => ?_, by decide, by decide⟩
  show compiledTests srcdir testdir = true ↔ _
  rw [compiledTests, jsStartsWith, isPrefixOf_iff_exists_append]
  constructor
  · rintro ⟨t, ht⟩
    refine ⟨⟨t⟩, String.ext ?_⟩
    rw [String.data_append, String.data_append]
    exact ht
  · rintro ⟨rest, rfl⟩
    exact ⟨rest.data, by rw [String.data_append, String.data_append]⟩

/-! ## Lemmas about the path model -/

theorem data_jsReplaceFirst (s pat rep : String) :
    (jsReplaceFirst s pat rep).data = replaceFirstChars pat.data rep.data s.data := rfl

theorem data_posixDirname (p : String) :
    (posixDirname p).data = dirnameChars p.data := rfl

theorem data_posixBasenameExt (p ext : String) :
    (posixBasenameExt p ext).data = basenameExtChars p.data ext.data := rfl

theorem data_posixJoin (parts : List String) :
    (posixJoin parts).data = joinChars (parts.map String.data) := rfl

theorem isPrefixOf_append_self (l t : List Char) : l.isPrefixOf (l ++ t) = true :=
  (isPrefixOf_iff_exists_append l (l ++ t)).mpr ⟨t, rfl⟩

/-- On a leading non-dollar character the substitution scan just copies it. -/
theorem getSubstitution_cons_of_ne (matched before after : List Char) (c : Char)
    (rest : List Char) (hc : c ≠ '$') :
    getSubstitution matched before after (c :: rest)
      = c :: getSubstitution matched before after rest := by
  cases rest with
  | nil => simp [getSubstitution, hc]
  | cons d rest' => simp [getSubstitution, hc]

/-- A replacement text without a dollar sign is substituted literally. -/
theorem getSubstitution_of_no_dollar (matched before after : List Char) :
    ∀ rep : List Char, '$' ∉ rep → getSubstitution matched before after rep = rep
  | [], _ => rfl
  | c :: rest, h => by
    have hc : c ≠ '$' := fun hc => h (hc ▸ List.mem_cons_self c rest)
    have hrest : '$' ∉ rest := fun hm => h (List.mem_cons_of_mem c hm)
    rw [getSubstitution_cons_of_ne matched before after c rest hc,
      getSubstitution_of_no_dollar matched before after rest hrest]

theorem replaceFirstAux_append (pat rep t before : List Char) (hrep : '$' ∉ rep) :
    replaceFirstAux pat rep before (pat ++ t) = rep ++ t := by
  cases pat with
  | nil =>
    cases t with
    | nil =>
      show replaceFirstAux [] rep before [] = rep ++ []
      simp only [replaceFirstAux]
      rw [if_pos trivial, getSubstitution_of_no_dollar _ _ _ rep hrep, List.append_nil]
    | cons c cs =>
      show replaceFirstAux [] rep before (c :: cs) = rep ++ (c :: cs)
      simp only [replaceFirstAux]
      rw [if_pos (show ([] : List Char).isPrefixOf (c :: cs) = true from rfl),
        show (c :: cs).drop ([] : List Char).length = c :: cs from rfl,
        getSubstitution_of_no_dollar _ _ _ rep hrep]
  | cons a as =>
    have hpre : (a :: as).isPrefixOf (a :: (as ++ t)) = true := by
      rw [← List.cons_append]
      exact isPrefixOf_append_self (a :: as) t
    rw [List.cons_append]
    simp only [replaceFirstAux]
    rw [if_pos hpre, getSubstitution_of_no_dollar _ _ _ rep hrep, ← List.cons_append,
      List.drop_left]

/-- The first occurrence of `pat` in `pat ++ t` is at position 0, so the
replacement happens there; a dollar-free replacement is inserted literally. -/
theorem replaceFirstChars_append (pat rep t : List Char) (hrep : '$' ∉ rep) :
    replaceFirstChars pat rep (pat ++ t) = rep ++ t :=
  replaceFirstAux_append pat rep t [] hrep

theorem dropWhile_ne_block (l₂ : List Char) (ch : Char) :
    ∀ l₁ : List Char, ch ∉ l₁ → (l₁ ++ ch :: l₂).dropWhile (· ≠ ch) = ch :: l₂
  | [], _ => by simp [List.dropWhile_cons]
  | c :: cs, h => by
    have hc : c ≠ ch := fun hc => h (hc ▸ List.mem_cons_self c cs)
    have hcs : ch ∉ cs := fun hm => h (List.mem_cons_of_mem c hm)
    simp only [List.cons_append, List.dropWhile_cons]
    rw [if_pos (by simp [hc]), dropWhile_ne_block l₂ ch cs hcs]

theorem takeWhile_ne_block (l₂ : List Char) (ch : Char) :
    ∀ l₁ : List Char, ch ∉ l₁ → (l₁ ++ ch :: l₂).takeWhile (· ≠ ch) = l₁
  | [], _ => by simp [List.takeWhile_cons]
  | c :: cs, h => by
    have hc : c ≠ ch := fun hc => h (hc ▸ List.mem_cons_self c cs)
    have hcs : ch ∉ cs := fun hm => h (List.mem_cons_of_mem c hm)
    simp only [List.cons_append, List.takeWhile_cons]
    rw [if_pos (by simp [hc]), takeWhile_ne_block l₂ ch cs hcs]

/-- The reversed remainder computation shared by `dirnameChars` and
`basenameChars`: for a path `s' ++ "/" ++ b` with slash-free nonempty base
`b`, skipping trailing slashes leaves everything, and the base-name scan
stops exactly at the separator. -/
theorem reverse_scan_append (s' b : List Char) (hb : b ≠ []) (hbs : '/' ∉ b) :
    ((s' ++ '/' :: b).reverse.dropWhile (· = '/')) = b.reverse ++ '/' :: s'.reverse := by
  obtain ⟨x, xs, hx⟩ : ∃ x xs, b.reverse = x :: xs := by
    cases hbr : b.reverse with
    | nil => exact absurd (by simpa using congrArg List.reverse hbr) hb
    | cons x xs => exact ⟨x, xs, rfl⟩
  have hxne : x ≠ '/' := by
    intro h
    exact hbs (by simpa using (hx ▸ (h ▸ List.mem_cons_self x xs) : '/' ∈ b.reverse))
  rw [List.reverse_append, show ('/' :: b).reverse = b.reverse ++ ['/'] from by simp,
    List.append_assoc, List.singleton_append, hx, List.cons_append, List.dropWhile_cons,
    if_neg (by simp [hxne]), ← List.cons_append, ← hx]

theorem dirnameChars_append (s' b : List Char) (hs : s' ≠ [])
    (hh : s'.head? ≠ some '/') (hb : b ≠ []) (hbs : '/' ∉ b) :
    dirnameChars (s' ++ '/' :: b) = s' := by
  obtain ⟨a, s'', rfl⟩ : ∃ a s'', s' = a :: s'' := by
    cases s' with
    | nil => exact absurd rfl hs
    | cons a s'' => exact ⟨a, s'', rfl⟩
  have ha : a ≠ '/' := by simpa using hh
  have hrev : '/' ∉ b.reverse := by simpa using hbs
  rw [List.cons_append,
    show dirnameChars (a :: (s'' ++ '/' :: b))
      = dirnameCore a (((a :: (s'' ++ '/' :: b)).reverse.dropWhile (· = '/')).dropWhile
          (· ≠ '/')) from rfl,
    ← List.cons_append, reverse_scan_append (a :: s'') b hb hbs,
    dropWhile_ne_block ((a :: s'').reverse) '/' b.reverse hrev]
  rw [show dirnameCore a ('/' :: (a :: s'').reverse)
      = if (a :: s'').reverse = [] then ['/']
        else if a = '/' ∧ (a :: s'').reverse = ['/'] then ['/', '/']
        else ((a :: s'').reverse).reverse from rfl]
  rw [if_neg (by simp), if_neg (by intro h; exact ha h.1), List.reverse_reverse]

theorem basenameChars_append (s' b : List Char) (hb : b ≠ []) (hbs : '/' ∉ b) :
    basenameChars (s' ++ '/' :: b) = b := by
  have hrev : '/' ∉ b.reverse := by simpa using hbs
  rw [basenameChars, reverse_scan_append s' b hb hbs,
    takeWhile_ne_block (s'.reverse) '/' b.reverse hrev, List.reverse_reverse]

theorem isSuffixOf_append_self (l t : List Char) : l.isSuffixOf (t ++ l) = true := by
  rw [List.isSuffixOf, List.reverse_append]
  exact isPrefixOf_append_self l.reverse t.reverse

theorem basenameExtChars_strip (s' stem ext : List Char) (hstem : stem ≠ [])
    (hext : ext ≠ []) (hslash : '/' ∉ stem ++ ext) :
    basenameExtChars (s' ++ '/' :: (stem ++ ext)) ext = stem := by
  have hbne : stem ++ ext ≠ [] := fun h => hstem (List.append_eq_nil.mp h).1
  have hb := basenameChars_append s' (stem ++ ext) hbne hslash
  rw [basenameExtChars, hb, if_pos ?cond]
  · rw [List.length_append, Nat.add_sub_cancel, List.take_left]
  case cond =>
    refine ⟨hext, ?_, ?_⟩
    · exact isSuffixOf_append_self ext stem
    · intro h
      have := congrArg List.length h
      rw [List.length_append] at this
      exact hstem (List.length_eq_zero.mp (by omega))

theorem cleanSeg_of_length (s : List Char) (hs : '/' ∉ s) (hlen : 2 < s.length) :
    cleanSeg s := by
  refine ⟨?_, hs, ?_, ?_⟩ <;> intro h <;> rw [h] at hlen <;> simp at hlen

theorem splitSlash_no_slash : ∀ s : List Char, '/' ∉ s → splitSlash s = [s]
  | [], _ => rfl
  | c :: cs, h => by
    have hc : c ≠ '/' := fun hc => h (hc ▸ List.mem_cons_self c cs)
    have hcs : '/' ∉ cs := fun hm => h (List.mem_cons_of_mem c hm)
    simp only [splitSlash]
    rw [if_neg hc, splitSlash_no_slash cs hcs]

theorem splitSlash_append (t : List Char) : ∀ s : List Char, '/' ∉ s →
    splitSlash (s ++ '/' :: t) = s :: splitSlash t
  | [], _ => by simp [splitSlash]
  | c :: cs, h => by
    have hc : c ≠ '/' := fun hc => h (hc ▸ List.mem_cons_self c cs)
    have hcs : '/' ∉ cs := fun hm => h (List.mem_cons_of_mem c hm)
    rw [List.cons_append]
    simp only [splitSlash]
    rw [if_neg hc, splitSlash_append t cs hcs]

theorem splitSlash_joinSlash : ∀ segs : List (List Char), segs ≠ [] →
    (∀ s ∈ segs, '/' ∉ s) → splitSlash (joinSlash segs) = segs
  | [], h, _ => absurd rfl h
  | [s], _, hall => by
    rw [show joinSlash [s] = s from rfl, splitSlash_no_slash s (hall s (by simp))]
  | s :: r :: rs, _, hall => by
    rw [show joinSlash (s :: r :: rs) = s ++ '/' :: joinSlash (r :: rs) from rfl,
      splitSlash_append (joinSlash (r :: rs)) s (hall s (by simp)),
      splitSlash_joinSlash (r :: rs) (by simp) (fun x hx => hall x (by simp [hx]))]

theorem joinSlash_append : ∀ (A B : List (List Char)), A ≠ [] → B ≠ [] →
    joinSlash (A ++ B) = joinSlash A ++ '/' :: joinSlash B
  | [], _, h, _ => absurd rfl h
  | [s], B, _, hB => by
    obtain ⟨b, bs, rfl⟩ : ∃ b bs, B = b :: bs := by
      cases B with
      | nil => exact absurd rfl hB
      | cons b bs => exact ⟨b, bs, rfl⟩
    rfl
  | s :: r :: rs, B, _, hB => by
    rw [List.cons_append, List.cons_append,
      show joinSlash (s :: r :: (rs ++ B)) = s ++ '/' :: joinSlash (r :: (rs ++ B)) from rfl,
      ← List.cons_append, joinSlash_append (r :: rs) B (by simp) hB,
      show joinSlash (s :: r :: rs) = s ++ '/' :: joinSlash (r :: rs) from rfl]
    simp

theorem joinSlash_ne_nil : ∀ segs : List (List Char), segs ≠ [] →
    (∀ s ∈ segs, s ≠ []) → joinSlash segs ≠ []
  | [], h, _ => absurd rfl h
  | [s], _, hall => by simpa using hall s (by simp)
  | s :: r :: rs, _, hall => by
    rw [show joinSlash (s :: r :: rs) = s ++ '/' :: joinSlash (r :: rs) from rfl]
    simp

theorem joinSlash_head? : ∀ (a : Char) (s : List Char) (rest : List (List Char)),
    (joinSlash ((a :: s) :: rest)).head? = some a
  | _, _, [] => rfl
  | a, s, r :: rs => by
    rw [show joinSlash ((a :: s) :: r :: rs)
        = (a :: s) ++ '/' :: joinSlash (r :: rs) from rfl, List.cons_append]
    rfl

theorem joinSlash_getLast_ne_slash : ∀ segs : List (List Char), segs ≠ [] →
    (∀ s ∈ segs, s ≠ [] ∧ '/' ∉ s) →
    ∀ x, (joinSlash segs).getLast? = some x → x ≠ '/'
  | [], h, _, _, _ => absurd rfl h
  | [s], _, hall, x, hx => by
    have hmem : x ∈ s := by
      rw [show joinSlash [s] = s from rfl] at hx
      exact List.mem_of_mem_getLast? hx
    exact fun h => (hall s (by simp)).2 (h ▸ hmem)
  | s :: r :: rs, _, hall, x, hx => by
    have hne : joinSlash (r :: rs) ≠ [] :=
      joinSlash_ne_nil (r :: rs) (by simp)
        (fun t ht => (hall t (List.mem_cons_of_mem s ht)).1)
    obtain ⟨y, hy⟩ : ∃ y, (joinSlash (r :: rs)).getLast? = some y := by
      cases hg : (joinSlash (r :: rs)).getLast? with
      | none => exact absurd (List.getLast?_eq_none_iff.mp hg) hne
      | some y => exact ⟨y, rfl⟩
    have h1 : ('/' :: joinSlash (r :: rs)).getLast? = some y := by
      rw [show ('/' :: joinSlash (r :: rs)) = ['/'] ++ joinSlash (r :: rs) from rfl,
        List.getLast?_append, hy]
      rfl
    rw [show joinSlash (s :: r :: rs) = s ++ '/' :: joinSlash (r :: rs) from rfl,
      List.getLast?_append, h1] at hx
    have hxy : y = x := by
      rw [show (some y).or s.getLast? = some y from rfl] at hx
      exact Option.some.inj hx
    exact hxy ▸
      joinSlash_getLast_ne_slash (r :: rs) (by simp)
        (fun t ht => hall t (List.mem_cons_of_mem s ht)) y hy

theorem normSegs_clean (b : Bool) : ∀ (segs acc : List (List Char)),
    (∀ s ∈ segs, cleanSeg s) → normSegs b acc segs = acc.reverse ++ segs
  | [], acc, _ => by simp [normSegs]
  | s :: rest, acc, h => by
    obtain ⟨h1, h2, h3, h4⟩ := h s (by simp)
    simp only [normSegs]
    rw [if_neg h3, if_neg h4,
      normSegs_clean b rest (s :: acc) (fun t ht => h t (by simp [ht]))]
    simp

theorem normalizeChars_clean (segs : List (List Char)) (hne : segs ≠ [])
    (hall : ∀ s ∈ segs, cleanSeg s) :
    normalizeChars (joinSlash segs) = joinSlash segs := by
  obtain ⟨s₀, rest, rfl⟩ : ∃ s₀ rest, segs = s₀ :: rest := by
    cases segs with
    | nil => exact absurd rfl hne
    | cons a b => exact ⟨a, b, rfl⟩
  obtain ⟨a, s₀', rfl⟩ : ∃ a s₀', s₀ = a :: s₀' := by
    have := (hall s₀ (by simp)).1
    cases s₀ with
    | nil => exact absurd rfl this
    | cons a s₀' => exact ⟨a, s₀', rfl⟩
  have ha : a ≠ '/' := by
    have := (hall (a :: s₀') (by simp)).2.1
    exact fun h => this (h ▸ List.mem_cons_self a s₀')
  obtain ⟨T, hT⟩ : ∃ T, joinSlash ((a :: s₀') :: rest) = a :: T := by
    cases rest with
    | nil => exact ⟨s₀', rfl⟩
    | cons r rs =>
      refine ⟨s₀' ++ '/' :: joinSlash (r :: rs), ?_⟩
      rw [show joinSlash ((a :: s₀') :: r :: rs)
          = (a :: s₀') ++ '/' :: joinSlash (r :: rs) from rfl, List.cons_append]
  have hnn : joinSlash ((a :: s₀') :: rest) ≠ [] :=
    joinSlash_ne_nil _ (by simp) (fun s hs => (hall s hs).1)
  have hlast : ¬ (joinSlash ((a :: s₀') :: rest)).getLast? = some '/' := by
    intro h
    exact joinSlash_getLast_ne_slash ((a :: s₀') :: rest) (by simp)
      (fun s hs => ⟨(hall s hs).1, (hall s hs).2.1⟩) '/' h rfl
  rw [hT]
  simp only [normalizeChars]
  rw [← hT, splitSlash_joinSlash _ (by simp) (fun s hs => (hall s hs).2.1),
    List.filter_eq_self.mpr (fun s hs => by simpa using (hall s hs).1),
    normSegs_clean _ _ [] hall]
  rw [List.reverse_nil, List.nil_append, if_neg hnn, if_neg ha, if_neg hlast,
    List.append_nil]

theorem joinChars_pair (A : List (List Char)) (f : List Char) (hA : A ≠ [])
    (hAc : ∀ s ∈ A, cleanSeg s) (hf : cleanSeg f) :
    joinChars [joinSlash A, f] = joinSlash (A ++ [f]) := by
  have hd : joinSlash A ≠ [] := joinSlash_ne_nil A hA (fun s hs => (hAc s hs).1)
  have hAf : ∀ s ∈ A ++ [f], cleanSeg s := by
    intro s hs
    rcases List.mem_append.mp hs with h | h
    · exact hAc s h
    · simp at h
      exact h ▸ hf
  have hjoin : joinSlash (A ++ [f]) = joinSlash A ++ '/' :: f :=
    joinSlash_append A [f] hA (by simp)
  simp only [joinChars]
  rw [show ([joinSlash A, f].filter (· ≠ [])) = [joinSlash A, f] from by
      simp [hd, hf.1],
    show joinSlash [joinSlash A, f] = joinSlash A ++ '/' :: f from rfl,
    ← hjoin,
    if_neg (joinSlash_ne_nil (A ++ [f]) (by simp) (fun s hs => (hAf s hs).1))]
  exact normalizeChars_clean (A ++ [f]) (by simp) hAf

theorem joinChars_triple (A : List (List Char)) (f g : List Char) (hA : A ≠ [])
    (hAc : ∀ s ∈ A, cleanSeg s) (hf : cleanSeg f) (hg : cleanSeg g) :
    joinChars [joinSlash A, f, g] = joinSlash (A ++ [f, g]) := by
  have hd : joinSlash A ≠ [] := joinSlash_ne_nil A hA (fun s hs => (hAc s hs).1)
  have hAfg : ∀ s ∈ A ++ [f, g], cleanSeg s := by
    intro s hs
    simp only [List.mem_append, List.mem_cons, List.not_mem_nil, or_false] at hs
    rcases hs with h | rfl | rfl
    · exact hAc s h
    · exact hf
    · exact hg
  have hjoin : joinSlash (A ++ [f, g]) = joinSlash A ++ '/' :: (f ++ '/' :: g) :=
    joinSlash_append A [f, g] hA (by simp)
  simp only [joinChars]
  rw [show ([joinSlash A, f, g].filter (· ≠ [])) = [joinSlash A, f, g] from by
      simp [hd, hf.1, hg.1],
    show joinSlash [joinSlash A, f, g] = joinSlash A ++ '/' :: (f ++ '/' :: g) from rfl,
    ← hjoin,
    if_neg (joinSlash_ne_nil (A ++ [f, g]) (by simp) (fun s hs => (hAfg s hs).1))]
  exact normalizeChars_clean (A ++ [f, g]) (by simp) hAfg

theorem cleanSeg_append_all {A B : List (List Char)} (hA : ∀ s ∈ A, cleanSeg s)
    (hB : ∀ s ∈ B, cleanSeg s) : ∀ s ∈ A ++ B, cleanSeg s := fun s hs =>
  (List.mem_append.mp hs).elim (hA s) (hB s)

theorem cleanSeg_singleton_all {f : List Char} (h : cleanSeg f) :
    ∀ s ∈ [f], cleanSeg s := by
  intro s hs
  simp at hs
  exact hs ▸ h

theorem joinSlash_head_ne_slash (segs : List (List Char)) (hne : segs ≠ [])
    (hall : ∀ s ∈ segs, cleanSeg s) : (joinSlash segs).head? ≠ some '/' := by
  obtain ⟨s₀, rest, rfl⟩ : ∃ s₀ rest, segs = s₀ :: rest := by
    cases segs with
    | nil => exact absurd rfl hne
    | cons a b => exact ⟨a, b, rfl⟩
  obtain ⟨a, s₀', rfl⟩ : ∃ a s₀', s₀ = a :: s₀' := by
    have := (hall s₀ (by simp)).1
    cases s₀ with
    | nil => exact absurd rfl this
    | cons a s₀' => exact ⟨a, s₀', rfl⟩
  have ha : a ≠ '/' := by
    have := (hall (a :: s₀') (by simp)).2.1
    exact fun h => this (h ▸ List.mem_cons_self a s₀')
  rw [joinSlash_head?]
  exact fun h => ha (Option.some.inj h)

/-! ## Claim theorems: the snapshot-path resolver -/

/-- C1 (amended): the round trip `resolveTestPath ∘ resolveSnapshotPath` is the
identity on every compiled-test path that starts with the compiled-test root
as its leading directory prefix, continues with arbitrarily nested clean
segments (nonempty, slash-free, not `.` or `..`), and ends in a base name
`stem + ".js"` with a nonempty slash-free stem — for clean root constants
free of the dollar sign (both roots are used as `String.replace` replacement
texts, where a dollar sign would trigger `GetSubstitution` escapes) and any
slash-free extension. (The original claim, quantifying over every path
that merely *contains* the root as a substring, is false — see the
counterexample, where an earlier occurrence of the source-test root hijacks
the reverse replacement.) -/
theorem resolve_roundTrip (L S segs : List (List Char)) (stem ext : List Char)
    (libtest srctest p extS : String)
    (hL : L ≠ []) (hLc : ∀ s ∈ L, cleanSeg s)
    (hS : S ≠ []) (hSc : ∀ s ∈ S, cleanSeg s)
    (hsegs : ∀ s ∈ segs, cleanSeg s)
    (hstem : stem ≠ []) (hstemS : '/' ∉ stem) (hext : '/' ∉ ext)
    (hLdollar : '$' ∉ libtest.data) (hSdollar : '$' ∉ srctest.data)
    (hlib : libtest.data = joinSlash L) (hsrc : srctest.data = joinSlash S)
    (hp : p.data = joinSlash (L ++ segs ++ [stem ++ ['.', 'j', 's']]))
    (hextS : extS.data = ext) :
    resolveTestPath libtest srctest (resolveSnapshotPath libtest srctest p extS) extS
      = p := by
  have hbaseSlash : '/' ∉ stem ++ ['.', 'j', 's'] := by
    intro h
    rcases List.mem_append.mp h with h | h
    · exact hstemS h
    · simp at h
  have hbase : cleanSeg (stem ++ ['.', 'j', 's']) := by
    refine cleanSeg_of_length _ hbaseSlash ?_
    have := List.length_pos.mpr hstem
    rw [List.length_append]
    have h3 : (['.', 'j', 's'] : List Char).length = 3 := rfl
    omega
  have hcompSlash : '/' ∉ stem ++ (['.', 't', 's'] ++ ext) := by
    intro h
    rcases List.mem_append.mp h with h | h
    · exact hstemS h
    · rcases List.mem_append.mp h with h | h
      · simp at h
      · exact hext h
  have hcomp : cleanSeg (stem ++ (['.', 't', 's'] ++ ext)) := by
    refine cleanSeg_of_length _ hcompSlash ?_
    have := List.length_pos.mpr hstem
    rw [List.length_append, List.length_append]
    have h3 : (['.', 't', 's'] : List Char).length = 3 := rfl
    omega
  have hsnapSeg : cleanSeg ("__snapshots__".data) := by decide
  have hSsegsC : ∀ s ∈ S ++ segs, cleanSeg s := cleanSeg_append_all hSc hsegs
  have hLsegsC : ∀ s ∈ L ++ segs, cleanSeg s := cleanSeg_append_all hLc hsegs
  have hSsegsNe : S ++ segs ≠ [] := fun h => hS (List.append_eq_nil.mp h).1
  have hLsegsNe : L ++ segs ≠ [] := fun h => hL (List.append_eq_nil.mp h).1
  have hJne : joinSlash (S ++ segs) ≠ [] :=
    joinSlash_ne_nil _ hSsegsNe (fun s hs => (hSsegsC s hs).1)
  have hJhead : (joinSlash (S ++ segs)).head? ≠ some '/' :=
    joinSlash_head_ne_slash _ hSsegsNe hSsegsC
  -- forward: the full path after the prefix replacement
  have h1 : (jsReplaceFirst p libtest srctest).data
      = joinSlash (S ++ segs ++ [stem ++ ['.', 'j', 's']]) := by
    rw [data_jsReplaceFirst, hlib, hsrc, hp]
    have e1 : joinSlash (L ++ segs ++ [stem ++ ['.', 'j', 's']])
        = joinSlash L ++ '/' :: joinSlash (segs ++ [stem ++ ['.', 'j', 's']]) := by
      rw [List.append_assoc]
      exact joinSlash_append L (segs ++ [stem ++ ['.', 'j', 's']]) hL (by simp)
    rw [e1, replaceFirstChars_append _ _ _ (hsrc ▸ hSdollar), List.append_assoc,
      joinSlash_append S (segs ++ [stem ++ ['.', 'j', 's']]) hS (by simp)]
  have e2 : joinSlash (S ++ segs ++ [stem ++ ['.', 'j', 's']])
      = joinSlash (S ++ segs) ++ '/' :: (stem ++ ['.', 'j', 's']) :=
    joinSlash_append (S ++ segs) [stem ++ ['.', 'j', 's']] hSsegsNe (by simp)
  -- forward: directory and stripped base name
  have h2 : (posixDirname (jsReplaceFirst p libtest srctest)).data
      = joinSlash (S ++ segs) := by
    rw [data_posixDirname, h1, e2]
    exact dirnameChars_append _ _ hJne hJhead hbase.1 hbase.2.1
  have h3 : (posixBasenameExt (jsReplaceFirst p libtest srctest) ".js").data = stem := by
    rw [data_posixBasenameExt, h1, show (".js" : String).data = ['.', 'j', 's'] from rfl,
      e2]
    exact basenameExtChars_strip _ stem ['.', 'j', 's'] hstem (by simp) hbaseSlash
  have hcompdata :
      (posixBasenameExt (jsReplaceFirst p libtest srctest) ".js" ++ ".ts" ++ extS).data
        = stem ++ (['.', 't', 's'] ++ ext) := by
    rw [String.data_append, String.data_append, h3, hextS,
      show (".ts" : String).data = ['.', 't', 's'] from rfl, List.append_assoc]
  -- the snapshot path
  have h4 : (resolveSnapshotPath libtest srctest p extS).data
      = joinSlash ((S ++ segs) ++ ["__snapshots__".data, stem ++ (['.', 't', 's'] ++ ext)]) := by
    simp only [resolveSnapshotPath]
    rw [data_posixJoin]
    simp only [List.map_cons, List.map_nil]
    rw [h2, hcompdata]
    exact joinChars_triple (S ++ segs) _ _ hSsegsNe hSsegsC hsnapSeg hcomp
  have e5 : joinSlash ((S ++ segs) ++ ["__snapshots__".data, stem ++ (['.', 't', 's'] ++ ext)])
      = joinSlash ((S ++ segs) ++ ["__snapshots__".data])
        ++ '/' :: (stem ++ (['.', 't', 's'] ++ ext)) := by
    rw [show (S ++ segs) ++ ["__snapshots__".data, stem ++ (['.', 't', 's'] ++ ext)]
        = ((S ++ segs) ++ ["__snapshots__".data]) ++ [stem ++ (['.', 't', 's'] ++ ext)] from
        by simp]
    exact joinSlash_append _ _ (by simp) (by simp)
  have e6 : joinSlash ((S ++ segs) ++ ["__snapshots__".data])
      = joinSlash (S ++ segs) ++ '/' :: "__snapshots__".data :=
    joinSlash_append (S ++ segs) ["__snapshots__".data] hSsegsNe (by simp)
  -- reverse: the two dirnames
  have h5 : (posixDirname (resolveSnapshotPath libtest srctest p extS)).data
      = joinSlash ((S ++ segs) ++ ["__snapshots__".data]) := by
    rw [data_posixDirname, h4, e5]
    refine dirnameChars_append _ _ ?_ ?_ hcomp.1 hcomp.2.1
    · exact joinSlash_ne_nil _ (by simp)
        (fun s hs => ((cleanSeg_append_all hSsegsC (cleanSeg_singleton_all hsnapSeg)) s hs).1)
    · exact joinSlash_head_ne_slash _ (by simp)
        (cleanSeg_append_all hSsegsC (cleanSeg_singleton_all hsnapSeg))
  have h6 : (posixDirname (posixDirname (resolveSnapshotPath libtest srctest p extS))).data
      = joinSlash (S ++ segs) := by
    rw [data_posixDirname, h5, e6]
    exact dirnameChars_append _ _ hJne hJhead hsnapSeg.1 hsnapSeg.2.1
  -- reverse: the root replacement back
  have h7 : (jsReplaceFirst
      (posixDirname (posixDirname (resolveSnapshotPath libtest srctest p extS)))
      srctest libtest).data = joinSlash (L ++ segs) := by
    rw [data_jsReplaceFirst, h6, hlib, hsrc]
    cases segs with
    | nil =>
      rw [List.append_nil, List.append_nil]
      have := replaceFirstChars_append (joinSlash S) (joinSlash L) [] (hlib ▸ hLdollar)
      rw [List.append_nil, List.append_nil] at this
      exact this
    | cons x xs =>
      rw [joinSlash_append S (x :: xs) hS (by simp),
        replaceFirstChars_append _ _ _ (hlib ▸ hLdollar),
        ← joinSlash_append L (x :: xs) hL (by simp)]
  -- reverse: the reconstructed file name
  have h8 : (posixBasenameExt (resolveSnapshotPath libtest srctest p extS)
      (".ts" ++ extS)).data = stem := by
    rw [data_posixBasenameExt, h4, String.data_append,
      show (".ts" : String).data = ['.', 't', 's'] from rfl, hextS, e5]
    exact basenameExtChars_strip _ stem (['.', 't', 's'] ++ ext) hstem (by simp) hcompSlash
  have h9 : (posixBasenameExt (resolveSnapshotPath libtest srctest p extS)
      (".ts" ++ extS) ++ ".js").data = stem ++ ['.', 'j', 's'] := by
    rw [String.data_append, h8, show (".js" : String).data = ['.', 'j', 's'] from rfl]
  -- assemble
  apply String.ext
  simp only [resolveTestPath]
  rw [data_posixJoin]
  simp only [List.map_cons, List.map_nil]
  rw [h7, h9,
    joinChars_pair (L ++ segs) _ hLsegsNe hLsegsC hbase, hp, List.append_assoc]

/-- Witness for C1: the spec's own example — with roots `lib/test` / `test`,
`lib/test/foo/bar.test.js` round-trips to itself through the `.snap`
snapshot path. -/
theorem resolve_roundTrip_witness :
    resolveTestPath "lib/test" "test"
        (resolveSnapshotPath "lib/test" "test" "lib/test/foo/bar.test.js" ".snap")
        ".snap"
      = "lib/test/foo/bar.test.js" :=
  resolve_roundTrip ["lib".data, "test".data] ["test".data] ["foo".data]
    "bar.test".data ".snap".data "lib/test" "test" "lib/test/foo/bar.test.js" ".snap"
    (by decide) (by decide) (by decide) (by decide) (by decide) (by decide)
    (by decide) (by decide) (by decide) (by decide) (by decide) (by decide)
    (by decide) (by decide)

/-- Counterexample for C1 as stated: `p = "test/lib/test/foo.js"` contains the
compiled-test root `"lib/test"` as a substring, yet the round trip returns
`"lib/test/test/foo.js" ≠ p` — the forward replacement rewrites the embedded
occurrence, while the reverse replacement hits the earlier `"test"`. -/
theorem resolve_roundTrip_cex :
    isInfixChars ("lib/test").data ("test/lib/test/foo.js").data = true ∧
    resolveSnapshotPath "lib/test" "test" "test/lib/test/foo.js" ".snap"
      = "test/test/__snapshots__/foo.ts.snap" ∧
    resolveTestPath "lib/test" "test"
        (resolveSnapshotPath "lib/test" "test" "test/lib/test/foo.js" ".snap") ".snap"
      = "lib/test/test/foo.js" ∧
    ("lib/test/test/foo.js" : String) ≠ "test/lib/test/foo.js" := by
  refine ⟨by decide, by decide, by decide, by decide⟩

end Projen
